import Mathlib

/-!
Verification of the recurring-schedule core of the `autocoder` dashboard.

The time/bitfield utilities below are shallow embeddings of the TypeScript
functions in `ui/src/lib/timeUtils.ts` (the time-utility source file of the
repository).  JavaScript numbers are modelled as `Nat` (all inputs in scope
are small non-negative integers, where JS bitwise ops `&`/`^` agree with
`Nat.land`/`Nat.xor`) or as `Int` where differences of instants occur.
Instants are modelled as integer counts of milliseconds or minutes as noted
at each definition.
-/

namespace Autocoder

/-- One entry of the `DAYS` array: a day label and its bit value. -/
structure DayInfo where
  label : String
  bit : Nat
deriving DecidableEq

/-- The `DAYS` array from the source: labels and bit values in Mon→Sun order. -/
def DAYS : List DayInfo :=
  [⟨"Mon", 1⟩, ⟨"Tue", 2⟩, ⟨"Wed", 4⟩, ⟨"Thu", 8⟩,
   ⟨"Fri", 16⟩, ⟨"Sat", 32⟩, ⟨"Sun", 64⟩]

/-- `isDayActive(bitfield, dayBit)` from the source: `(bitfield & dayBit) !== 0`. -/
def isDayActive (bitfield dayBit : Nat) : Bool :=
  bitfield &&& dayBit != 0

/-- `toggleDay(bitfield, dayBit)` from the source: `bitfield ^ dayBit`. -/
def toggleDay (bitfield dayBit : Nat) : Nat :=
  bitfield ^^^ dayBit

/-- `formatDaysDescription(bitfield)` from the source: special cases for
127/31/96, otherwise the comma-joined labels of the active days taken from
`DAYS` in order. -/
def formatDaysDescription (bitfield : Nat) : String :=
  if bitfield = 127 then "Every day"
  else if bitfield = 31 then "Weekdays"
  else if bitfield = 96 then "Weekends"
  else String.intercalate ", "
    ((DAYS.filter (fun d => isDayActive bitfield d.bit)).map (fun d => d.label))

/-- `formatDuration(minutes)` from the source: `hours = Math.floor(minutes/60)`,
`mins = minutes % 60`; renders "Nm", "Nh", or "Nh Mm". For non-negative
integers, `Math.floor(minutes/60)` is `minutes / 60` on `Nat`. -/
def formatDuration (minutes : Nat) : String :=
  let hours := minutes / 60
  let mins := minutes % 60
  if hours = 0 then toString mins ++ "m"
  else if mins = 0 then toString hours ++ "h"
  else toString hours ++ "h " ++ toString mins ++ "m"

/-- Spec-side day-label list, written from the claim's wording: the labels of
exactly the days whose bits are set in the mask, in Mon, Tue, Wed, Thu, Fri,
Sat, Sun order. -/
def specDayLabels (m : Nat) : List String :=
  (if m &&& 1 != 0 then ["Mon"] else []) ++
  (if m &&& 2 != 0 then ["Tue"] else []) ++
  (if m &&& 4 != 0 then ["Wed"] else []) ++
  (if m &&& 8 != 0 then ["Thu"] else []) ++
  (if m &&& 16 != 0 then ["Fri"] else []) ++
  (if m &&& 32 != 0 then ["Sat"] else []) ++
  (if m &&& 64 != 0 then ["Sun"] else [])

/-- C3: for every positive number of minutes, `formatDuration` renders
`hours = minutes div 60` and `mins = minutes mod 60` as "Nm" when hours = 0,
"Nh" when mins = 0, and "Nh Mm" otherwise; and the three concrete examples
`formatDuration 240 = "4h"`, `formatDuration 90 = "1h 30m"`,
`formatDuration 30 = "30m"` hold. -/
theorem formatDuration_rendering (minutes : Nat) (_hpos : 0 < minutes) :
    (minutes / 60 = 0 → formatDuration minutes = toString (minutes % 60) ++ "m") ∧
    (minutes / 60 ≠ 0 → minutes % 60 = 0 →
      formatDuration minutes = toString (minutes / 60) ++ "h") ∧
    (minutes / 60 ≠ 0 → minutes % 60 ≠ 0 →
      formatDuration minutes =
        toString (minutes / 60) ++ "h " ++ toString (minutes % 60) ++ "m") ∧
    formatDuration 240 = "4h" ∧
    formatDuration 90 = "1h 30m" ∧
    formatDuration 30 = "30m" := by
  refine ⟨?_, ?_, ?_, by decide, by decide, by decide⟩
  · intro h0
    simp [formatDuration, h0]
  · intro h0 hm
    simp [formatDuration, h0, hm]
  · intro h0 hm
    simp [formatDuration, h0, hm]

/-- Witness for C3 at minutes = 90. -/
theorem formatDuration_rendering_witness :
    (90 / 60 = 0 → formatDuration 90 = toString (90 % 60) ++ "m") ∧
    (90 / 60 ≠ 0 → 90 % 60 = 0 → formatDuration 90 = toString (90 / 60) ++ "h") ∧
    (90 / 60 ≠ 0 → 90 % 60 ≠ 0 →
      formatDuration 90 = toString (90 / 60) ++ "h " ++ toString (90 % 60) ++ "m") ∧
    formatDuration 240 = "4h" ∧
    formatDuration 90 = "1h 30m" ∧
    formatDuration 30 = "30m" :=
  formatDuration_rendering 90 (by decide)

/-- C4: for every mask in [0,127], `formatDaysDescription` returns
"Every day" for 127, "Weekdays" for 31, "Weekends" for 96, and otherwise the
comma-joined labels of exactly the days whose bits are set, in Mon→Sun
order. -/
theorem formatDaysDescription_correct :
    ∀ m < 128, formatDaysDescription m =
      if m = 127 then "Every day"
      else if m = 31 then "Weekdays"
      else if m = 96 then "Weekends"
      else String.intercalate ", " (specDayLabels m) := by
  decide

/-- Witness for C4 at mask 5 = Mon + Wed. -/
theorem formatDaysDescription_correct_witness :
    formatDaysDescription 5 =
      if 5 = 127 then "Every day"
      else if 5 = 31 then "Weekdays"
      else if 5 = 96 then "Weekends"
      else String.intercalate ", " (specDayLabels 5) :=
  formatDaysDescription_correct 5 (by decide)

/-- C5: toggling a valid day bit in a mask in [0,127] flips that day's
`isDayActive` status. -/
theorem toggleDay_flips_isDayActive :
    ∀ m < 128, ∀ b ∈ [1, 2, 4, 8, 16, 32, 64],
      isDayActive (toggleDay m b) b ≠ isDayActive m b := by
  decide

/-- Witness for C5 at mask 0, bit 1. -/
theorem toggleDay_flips_isDayActive_witness :
    isDayActive (toggleDay 0 1) 1 ≠ isDayActive 0 1 :=
  toggleDay_flips_isDayActive 0 (by decide) 1 (by decide)

/-- C8: the all-zero mask renders as the empty string. -/
theorem formatDaysDescription_zero : formatDaysDescription 0 = "" := by
  decide

/-- C9: toggling a valid day bit keeps the mask in [0,127]. -/
theorem toggleDay_preserves_mask_range :
    ∀ m < 128, ∀ b ∈ [1, 2, 4, 8, 16, 32, 64], toggleDay m b < 128 := by
  decide

/-- Witness for C9 at mask 127, bit 64. -/
theorem toggleDay_preserves_mask_range_witness :
    toggleDay 127 64 < 128 :=
  toggleDay_preserves_mask_range 127 (by decide) 64 (by decide)

/-!
## HH:MM time-string conversions

`utcToLocal` and `localToUTC` in the source parse an "HH:MM" string with
`split(':')` and `Number`, shift it through a `Date` (which applies the
viewer's UTC offset for the current date), and re-render with
`String(n).padStart(2, '0')`.  We model the viewer's zone as an explicit
`offsetMinutes : Int` parameter with local = UTC + offset (a fixed offset,
matching the claim's exclusion of DST-transition edges), and a time of day
as its minute count mod 1440.  Malformed inputs (where JS `Number` yields
`NaN`) are outside the scope of the claim; the parser returns 0 for a piece
with no digits where JS would propagate `NaN`.
-/

/-- Split a character list at each `':'`, the character-level behaviour of
JS `split(':')`; `acc` holds the current piece reversed. -/
def splitColonAux : List Char → List Char → List (List Char)
  | [], acc => [acc.reverse]
  | c :: cs, acc =>
    if c = ':' then acc.reverse :: splitColonAux cs []
    else splitColonAux cs (c :: acc)

/-- Decimal value of a digit string, the behaviour of JS `Number` on an
all-digit string. -/
def charsToNat (cs : List Char) : Nat :=
  cs.foldl (fun a c => a * 10 + (c.toNat - 48)) 0

/-- Parse "HH:MM" as the source does: split at ':' and read each piece as a
number.  Any shape other than two pieces is outside the claim's scope and
maps to (0, 0). -/
def parseHHMM (s : String) : Nat × Nat :=
  match splitColonAux s.data [] with
  | [h, m] => (charsToNat h, charsToNat m)
  | _ => (0, 0)

/-- `String(n).padStart(2, '0')` from the source, for a natural number. -/
def pad2 (n : Nat) : String :=
  let s := toString n
  if s.length < 2 then "0" ++ s else s

/-- `utcToLocal(utcTime)` from the source, with the viewer's UTC offset made
an explicit parameter: parse "HH:MM", add the offset mod one day, re-render
zero-padded. -/
def utcToLocal (offsetMinutes : Int) (utcTime : String) : String :=
  let hm := parseHHMM utcTime
  let total : Int := ((hm.1 * 60 + hm.2 : Nat) : Int) + offsetMinutes
  let t := (total % 1440).toNat
  pad2 (t / 60) ++ ":" ++ pad2 (t % 60)

/-- `localToUTC(localTime)` from the source, with the viewer's UTC offset
made an explicit parameter: parse "HH:MM", subtract the offset mod one day,
re-render zero-padded. -/
def localToUTC (offsetMinutes : Int) (localTime : String) : String :=
  let hm := parseHHMM localTime
  let total : Int := ((hm.1 * 60 + hm.2 : Nat) : Int) - offsetMinutes
  let t := (total % 1440).toNat
  pad2 (t / 60) ++ ":" ++ pad2 (t % 60)

/-- A well-formed "HH:MM" string: the zero-padded rendering of some hour
below 24 and minute below 60. -/
def wellFormedHHMM (t : String) : Prop :=
  ∃ h m, h < 24 ∧ m < 60 ∧ t = pad2 h ++ ":" ++ pad2 m

/-- For n < 100, `pad2 n` consists of digits only (no ':') and parses back
to n. -/
theorem pad2_parse :
    ∀ n < 100, charsToNat (pad2 n).data = n ∧ ':' ∉ (pad2 n).data := by
  decide

/-- Splitting a colon-free list yields one piece. -/
theorem splitColonAux_no_colon (ys : List Char) :
    ∀ acc : List Char, ':' ∉ ys → splitColonAux ys acc = [acc.reverse ++ ys] := by
  induction ys with
  | nil => intro acc _; simp [splitColonAux]
  | cons c cs ih =>
    intro acc hmem
    have hc : c ≠ ':' := fun h => hmem (h ▸ List.mem_cons_self c cs)
    have hcs : ':' ∉ cs := fun h => hmem (List.mem_cons_of_mem c h)
    simp [splitColonAux, hc, ih (c :: acc) hcs]

/-- Splitting a list with exactly one colon yields the two surrounding
pieces. -/
theorem splitColonAux_one_colon (xs : List Char) :
    ∀ acc ys : List Char, ':' ∉ xs → ':' ∉ ys →
      splitColonAux (xs ++ ':' :: ys) acc = [acc.reverse ++ xs, ys] := by
  induction xs with
  | nil =>
    intro acc ys _ hys
    simp [splitColonAux, splitColonAux_no_colon ys [] hys]
  | cons c cs ih =>
    intro acc ys hmem hys
    have hc : c ≠ ':' := fun h => hmem (h ▸ List.mem_cons_self c cs)
    have hcs : ':' ∉ cs := fun h => hmem (List.mem_cons_of_mem c h)
    simp [splitColonAux, hc, ih (c :: acc) ys hcs hys]

/-- Parsing the zero-padded rendering of h:m recovers (h, m). -/
theorem parseHHMM_pad2 (h m : Nat) (hh : h < 24) (hm : m < 60) :
    parseHHMM (pad2 h ++ ":" ++ pad2 m) = (h, m) := by
  have hh100 : h < 100 := by omega
  have hm100 : m < 100 := by omega
  obtain ⟨hhv, hhc⟩ := pad2_parse h hh100
  obtain ⟨hmv, hmc⟩ := pad2_parse m hm100
  have hdata : (pad2 h ++ ":" ++ pad2 m).data =
      (pad2 h).data ++ ':' :: (pad2 m).data := by
    simp [String.data_append]
  rw [parseHHMM, hdata, splitColonAux_one_colon (pad2 h).data [] (pad2 m).data hhc hmc]
  simp [hhv, hmv]

/-- The modular arithmetic at the heart of the round trip: shifting a minute
count below 1440 by −offset mod 1440 and then by +offset mod 1440 restores
it. -/
theorem roundtrip_minutes (off : Int) (h m u : Nat)
    (hu : (u : Int) = (((h * 60 + m : Nat) : Int) - off) % 1440)
    (hh : h < 24) (hm : m < 60) :
    (((((u / 60) * 60 + u % 60 : Nat) : Int) + off) % 1440).toNat = h * 60 + m := by
  omega

/-- C6: for every well-formed "HH:MM" string and every fixed UTC offset,
`utcToLocal` is a left inverse of `localToUTC`. -/
theorem utcToLocal_localToUTC_roundtrip (off : Int) (t : String)
    (hw : wellFormedHHMM t) : utcToLocal off (localToUTC off t) = t := by
  obtain ⟨h, m, hh, hm, rfl⟩ := hw
  have hp : parseHHMM (pad2 h ++ ":" ++ pad2 m) = (h, m) := parseHHMM_pad2 h m hh hm
  rw [localToUTC]
  simp only [hp]
  set u : Nat := (((((h : Nat) * 60 + m : Nat) : Int) - off) % 1440).toNat with hu
  have hu1440 : u < 1440 := by omega
  have hud : u / 60 < 24 := by omega
  have hum : u % 60 < 60 := by omega
  rw [utcToLocal]
  simp only [parseHHMM_pad2 (u / 60) (u % 60) hud hum]
  have harith : (((((u / 60) * 60 + u % 60 : Nat) : Int) + off) % 1440).toNat
      = h * 60 + m := by
    apply roundtrip_minutes off h m u _ hh hm
    omega
  rw [harith]
  have h1 : (h * 60 + m) / 60 = h := by omega
  have h2 : (h * 60 + m) % 60 = m := by omega
  rw [h1, h2]

/-- Witness for C6 with a +9 h offset and t = "22:00". -/
theorem utcToLocal_localToUTC_roundtrip_witness :
    utcToLocal 540 (localToUTC 540 "22:00") = "22:00" :=
  utcToLocal_localToUTC_roundtrip 540 "22:00" ⟨22, 0, by decide, by decide, by decide⟩

/-!
## `formatNextRun` rendering style

`formatNextRun(isoString)` computes `diffMs = date.getTime() - now.getTime()`
and `diffHours = Math.floor(diffMs / 3600000)`, rendering a locale
time-of-day string when `diffHours < 24` and a locale short-weekday-plus-time
string otherwise.  The two locale renderings are abstracted as the two
constructors below; instants are milliseconds since an epoch, and
`Math.floor` of an integer ratio is `Int.fdiv`.
-/

/-- Which of the two locale renderings `formatNextRun` chooses. -/
inductive NextRunRendering
  | timeOnly
  | weekdayAndTime
deriving DecidableEq

/-- Branch selection of `formatNextRun` from the source. -/
def formatNextRunStyle (instantMs nowMs : Int) : NextRunRendering :=
  let diffMs := instantMs - nowMs
  let diffHours := diffMs.fdiv 3600000
  if diffHours < 24 then .timeOnly else .weekdayAndTime

/-- C7: `formatNextRun` renders time-of-day only exactly when the instant is
less than 24 hours (86400000 ms) after the moment of formatting, and short
weekday plus time exactly when it is 24 hours or more after. -/
theorem formatNextRunStyle_threshold (instantMs nowMs : Int) :
    (formatNextRunStyle instantMs nowMs = .timeOnly ↔
      instantMs - nowMs < 24 * 3600000) ∧
    (formatNextRunStyle instantMs nowMs = .weekdayAndTime ↔
      24 * 3600000 ≤ instantMs - nowMs) := by
  have hfd : (instantMs - nowMs).fdiv 3600000 = (instantMs - nowMs) / 3600000 :=
    Int.fdiv_eq_ediv _ (by omega)
  rw [formatNextRunStyle]
  simp only [hfd]
  constructor
  · constructor
    · intro hstyle
      by_contra hlt
      rw [if_neg (by omega)] at hstyle
      exact absurd hstyle (by simp)
    · intro hlt
      rw [if_pos (by omega)]
  · constructor
    · intro hstyle
      by_contra hlt
      rw [if_pos (by omega)] at hstyle
      exact absurd hstyle (by simp)
    · intro hle
      rw [if_neg (by omega)]

/-- C10: an instant at or before the moment of formatting always renders as
time-of-day only. -/
theorem formatNextRunStyle_past_timeOnly (instantMs nowMs : Int)
    (hpast : instantMs ≤ nowMs) :
    formatNextRunStyle instantMs nowMs = .timeOnly := by
  have hfd : (instantMs - nowMs).fdiv 3600000 = (instantMs - nowMs) / 3600000 :=
    Int.fdiv_eq_ediv _ (by omega)
  rw [formatNextRunStyle]
  simp only [hfd]
  rw [if_pos (by omega)]

/-- Witness for C10 at instant = now = 0. -/
theorem formatNextRunStyle_past_timeOnly_witness :
    formatNextRunStyle 0 0 = .timeOnly :=
  formatNextRunStyle_past_timeOnly 0 0 (by decide)

/-!
## Occurrence generation and schedule resolution

Modelled from the spec: the Occurrence Generator and Schedule Resolver are
code of this repository that is not under the observed source files (only
their caller, the `useNextScheduledRun` consumer, appears); the definitions
below follow §4.2 and §4.3 of the specification.  Instants are integer
minutes since an epoch chosen so that minute 0 is a Monday 00:00 UTC; a
calendar day is an instant floor-divided by 1440, and day d has weekday
index d mod 7 with Monday = 0, matching bit `1 <<< index` of the
`days_of_week` mask.
-/

/-- A recurring weekly schedule (§3 of the spec).  `start_time_utc` is split
into its hour and minute components. -/
structure Schedule where
  id : Nat
  days_of_week : Nat
  start_hour : Nat
  start_minute : Nat
  duration_minutes : Nat
  enabled : Bool
deriving DecidableEq

/-- A concrete occurrence: absolute UTC start/end instants in minutes. -/
structure Occurrence where
  start : Int
  end_ : Int
  source_schedule_id : Nat
deriving DecidableEq

/-- The resolver's answer (§3 of the spec). -/
structure ResolvedState where
  is_currently_running : Bool
  current_end : Option Int
  next_start : Option Int
deriving DecidableEq

/-- Modelled from the spec: the day offsets scanned by the generator, the
inclusive range [reference date − 1 day, reference date + 7 days] (§4.2). -/
def dayOffsets : List Int := [-1, 0, 1, 2, 3, 4, 5, 6, 7]

/-- Day-of-week bit of a calendar day number (Monday-based epoch). -/
def weekdayBit (day : Int) : Nat := 1 <<< (day % 7).toNat

/-- Modelled from the spec: `generate(schedule, referenceInstant)` (§4.2) —
for each scanned calendar day whose weekday bit is set in the mask, emit the
occurrence starting at that day's `start_time_utc` and ending
`duration_minutes` later. -/
def generate (s : Schedule) (ref : Int) : List Occurrence :=
  let refDate := ref.fdiv 1440
  dayOffsets.filterMap (fun off =>
    let day := refDate + off
    if isDayActive s.days_of_week (weekdayBit day) then
      let start : Int := day * 1440 + ((s.start_hour * 60 + s.start_minute : Nat) : Int)
      some ⟨start, start + (s.duration_minutes : Int), s.id⟩
    else none)

/-- All occurrences of the enabled schedules, expanded at `now` (§4.3 step 1). -/
def allOccurrences (schedules : List Schedule) (now : Int) : List Occurrence :=
  (schedules.filter (fun s => s.enabled)).flatMap (fun s => generate s now)

/-- Whether an occurrence covers `now`: `start <= now < end` (§4.3 step 2). -/
def covers (now : Int) (o : Occurrence) : Bool :=
  decide (o.start ≤ now) && decide (now < o.end_)

/-- Latest end among a list of occurrences, `none` on the empty list. -/
def maxEnd? : List Occurrence → Option Int
  | [] => none
  | o :: rest => some (rest.foldl (fun acc x => max acc x.end_) o.end_)

/-- Earliest start among a list of occurrences, `none` on the empty list. -/
def minStart? : List Occurrence → Option Int
  | [] => none
  | o :: rest => some (rest.foldl (fun acc x => min acc x.start) o.start)

/-- Modelled from the spec: `resolve(schedules, now)` (§4.3) — if some
occurrence covers `now`, report running with the maximum covering end and no
next start; otherwise report not running with the minimum upcoming start. -/
def resolve (schedules : List Schedule) (now : Int) : ResolvedState :=
  let occs := allOccurrences schedules now
  let running := occs.filter (covers now)
  if running.isEmpty then
    let upcoming := occs.filter (fun o => decide (now < o.start))
    ⟨false, none, minStart? upcoming⟩
  else ⟨true, maxEnd? running, none⟩

/-- The Mon-only schedule of the spec's worked example: bit 1, 22:00 UTC,
600 minutes, enabled.  With the Monday-based epoch, Monday 22:00 is minute
1320, Tuesday 03:00 is 1620, Tuesday 08:00 is 1920, Tuesday 09:00 is 1980
and the following Monday 22:00 is 11400. -/
def monOnlySchedule : Schedule := ⟨1, 1, 22, 0, 600, true⟩

/-- First of the two overlapping every-day schedules of the spec's example:
starts 00:00, runs 60 minutes. -/
def overlapShortSchedule : Schedule := ⟨2, 127, 0, 0, 60, true⟩

/-- Second overlapping schedule: starts 00:00, runs 180 minutes. -/
def overlapLongSchedule : Schedule := ⟨3, 127, 0, 0, 180, true⟩

/-- A schedule whose day mask is 0: it generates no occurrences. -/
def zeroMaskSchedule : Schedule := ⟨4, 0, 9, 30, 120, true⟩

/-- The initial value is a lower bound of a `foldl max` over occurrence
ends. -/
theorem le_foldl_maxEnd (xs : List Occurrence) :
    ∀ a : Int, a ≤ xs.foldl (fun acc x => max acc x.end_) a := by
  induction xs with
  | nil => intro a; exact le_refl a
  | cons x xs ih =>
    intro a
    rw [List.foldl_cons]
    exact le_trans (le_max_left a x.end_) (ih _)

/-- Every listed occurrence's end is a lower bound of a `foldl max` over
occurrence ends. -/
theorem mem_le_foldl_maxEnd (xs : List Occurrence) :
    ∀ (a : Int) (o : Occurrence), o ∈ xs →
      o.end_ ≤ xs.foldl (fun acc x => max acc x.end_) a := by
  induction xs with
  | nil => intro a o h; cases h
  | cons x xs ih =>
    intro a o h
    rw [List.foldl_cons]
    rcases List.mem_cons.mp h with rfl | hmem
    · exact le_trans (le_max_right a o.end_) (le_foldl_maxEnd xs _)
    · exact ih _ o hmem

/-- A `foldl max` over occurrence ends is the initial value or the end of
some listed occurrence. -/
theorem foldl_maxEnd_mem (xs : List Occurrence) :
    ∀ a : Int, xs.foldl (fun acc x => max acc x.end_) a = a ∨
      ∃ o ∈ xs, xs.foldl (fun acc x => max acc x.end_) a = o.end_ := by
  induction xs with
  | nil => intro a; exact Or.inl rfl
  | cons x xs ih =>
    intro a
    rw [List.foldl_cons]
    rcases ih (max a x.end_) with h | ⟨o, ho, he⟩
    · rcases max_choice a x.end_ with hm | hm
      · exact Or.inl (by rw [h, hm])
      · exact Or.inr ⟨x, List.mem_cons_self x xs, by rw [h, hm]⟩
    · exact Or.inr ⟨o, List.mem_cons_of_mem x ho, he⟩

/-- The initial value is an upper bound of a `foldl min` over occurrence
starts. -/
theorem foldl_minStart_le (xs : List Occurrence) :
    ∀ a : Int, xs.foldl (fun acc x => min acc x.start) a ≤ a := by
  induction xs with
  | nil => intro a; exact le_refl a
  | cons x xs ih =>
    intro a
    rw [List.foldl_cons]
    exact le_trans (ih _) (min_le_left a x.start)

/-- A `foldl min` over occurrence starts is below every listed occurrence's
start. -/
theorem foldl_minStart_le_mem (xs : List Occurrence) :
    ∀ (a : Int) (o : Occurrence), o ∈ xs →
      xs.foldl (fun acc x => min acc x.start) a ≤ o.start := by
  induction xs with
  | nil => intro a o h; cases h
  | cons x xs ih =>
    intro a o h
    rw [List.foldl_cons]
    rcases List.mem_cons.mp h with rfl | hmem
    · exact le_trans (foldl_minStart_le xs _) (min_le_right a o.start)
    · exact ih _ o hmem

/-- A `foldl min` over occurrence starts is the initial value or the start
of some listed occurrence. -/
theorem foldl_minStart_mem (xs : List Occurrence) :
    ∀ a : Int, xs.foldl (fun acc x => min acc x.start) a = a ∨
      ∃ o ∈ xs, xs.foldl (fun acc x => min acc x.start) a = o.start := by
  induction xs with
  | nil => intro a; exact Or.inl rfl
  | cons x xs ih =>
    intro a
    rw [List.foldl_cons]
    rcases ih (min a x.start) with h | ⟨o, ho, he⟩
    · rcases min_choice a x.start with hm | hm
      · exact Or.inl (by rw [h, hm])
      · exact Or.inr ⟨x, List.mem_cons_self x xs, by rw [h, hm]⟩
    · exact Or.inr ⟨o, List.mem_cons_of_mem x ho, he⟩

/-- A schedule with mask 0 generates no occurrences. -/
theorem generate_zero_mask (s : Schedule) (h : s.days_of_week = 0) (ref : Int) :
    generate s ref = [] := by
  simp [generate, isDayActive, h, dayOffsets, Nat.zero_and]

/-- C1: if some generated occurrence of the enabled schedules covers `now`
(start ≤ now < end), `resolve` reports running, with `current_end` the
maximum end over the covering occurrences and `next_start` unset; moreover
two overlapping windows ending at T+1h and T+3h resolve to
`current_end = T+3h`, and the Mon-only 22:00 UTC 600-minute schedule at
Tuesday 03:00 UTC (minute 1620) resolves to `current_end` = Tuesday
08:00 UTC (minute 1920). -/
theorem resolve_running_branch (schedules : List Schedule) (now : Int)
    (hcov : ∃ o ∈ allOccurrences schedules now, covers now o = true) :
    (resolve schedules now).is_currently_running = true ∧
    (∃ e, (resolve schedules now).current_end = some e ∧
      (∃ o ∈ allOccurrences schedules now, covers now o = true ∧ o.end_ = e) ∧
      (∀ o ∈ allOccurrences schedules now, covers now o = true → o.end_ ≤ e)) ∧
    (resolve schedules now).next_start = none ∧
    resolve [overlapShortSchedule, overlapLongSchedule] 30 =
      ⟨true, some 180, none⟩ ∧
    resolve [monOnlySchedule] 1620 = ⟨true, some 1920, none⟩ := by
  obtain ⟨o0, ho0, hc0⟩ := hcov
  have hmem : o0 ∈ (allOccurrences schedules now).filter (covers now) :=
    List.mem_filter.mpr ⟨ho0, hc0⟩
  cases hrun : (allOccurrences schedules now).filter (covers now) with
  | nil => rw [hrun] at hmem; cases hmem
  | cons r rest =>
    have hres : resolve schedules now = ⟨true, maxEnd? (r :: rest), none⟩ := by
      simp only [resolve]
      rw [hrun]
      rfl
    have hsub : ∀ x : Occurrence, x ∈ r :: rest →
        x ∈ allOccurrences schedules now ∧ covers now x = true := by
      intro x hx
      have hxf : x ∈ (allOccurrences schedules now).filter (covers now) := by
        rw [hrun]; exact hx
      exact List.mem_filter.mp hxf
    have hsup : ∀ x : Occurrence, x ∈ allOccurrences schedules now →
        covers now x = true → x ∈ r :: rest := by
      intro x hx hc
      rw [← hrun]
      exact List.mem_filter.mpr ⟨hx, hc⟩
    rw [hres]
    refine ⟨rfl, ?_, rfl, by decide, by decide⟩
    have hmax : maxEnd? (r :: rest) =
        some (rest.foldl (fun acc x => max acc x.end_) r.end_) := rfl
    refine ⟨rest.foldl (fun acc x => max acc x.end_) r.end_, hmax, ?_, ?_⟩
    · rcases foldl_maxEnd_mem rest r.end_ with h | ⟨o, ho, he⟩
      · exact ⟨r, (hsub r (List.mem_cons_self r rest)).1,
          (hsub r (List.mem_cons_self r rest)).2, h.symm⟩
      · exact ⟨o, (hsub o (List.mem_cons_of_mem r ho)).1,
          (hsub o (List.mem_cons_of_mem r ho)).2, he.symm⟩
    · intro o ho hc
      rcases List.mem_cons.mp (hsup o ho hc) with rfl | hmem2
      · exact le_foldl_maxEnd rest o.end_
      · exact mem_le_foldl_maxEnd rest r.end_ o hmem2

/-- Witness for C1: the Mon-only schedule at Tuesday 03:00 UTC. -/
theorem resolve_running_branch_witness :
    (resolve [monOnlySchedule] 1620).is_currently_running = true ∧
    (∃ e, (resolve [monOnlySchedule] 1620).current_end = some e ∧
      (∃ o ∈ allOccurrences [monOnlySchedule] 1620,
        covers 1620 o = true ∧ o.end_ = e) ∧
      (∀ o ∈ allOccurrences [monOnlySchedule] 1620,
        covers 1620 o = true → o.end_ ≤ e)) ∧
    (resolve [monOnlySchedule] 1620).next_start = none ∧
    resolve [overlapShortSchedule, overlapLongSchedule] 30 =
      ⟨true, some 180, none⟩ ∧
    resolve [monOnlySchedule] 1620 = ⟨true, some 1920, none⟩ :=
  resolve_running_branch [monOnlySchedule] 1620 (by decide)

/-- C2: if no generated occurrence of the enabled schedules covers `now`,
`resolve` reports not running, `next_start` is the minimum start among the
occurrences with start > now and is unset exactly when there is none;
moreover a mask-0 schedule resolves to not running with `next_start` unset
at every instant, and the Mon-only 22:00 UTC 600-minute schedule at Tuesday
09:00 UTC (minute 1980) resolves to `next_start` = next Monday 22:00 UTC
(minute 11400). -/
theorem resolve_idle_branch (schedules : List Schedule) (now : Int)
    (hnone : ∀ o ∈ allOccurrences schedules now, covers now o = false) :
    (resolve schedules now).is_currently_running = false ∧
    ((resolve schedules now).next_start = none ↔
      ∀ o ∈ allOccurrences schedules now, ¬ now < o.start) ∧
    (∀ e : Int, (resolve schedules now).next_start = some e →
      (∃ o ∈ allOccurrences schedules now, now < o.start ∧ o.start = e) ∧
      (∀ o ∈ allOccurrences schedules now, now < o.start → e ≤ o.start)) ∧
    (∀ t : Int, resolve [zeroMaskSchedule] t = ⟨false, none, none⟩) ∧
    resolve [monOnlySchedule] 1980 = ⟨false, none, some 11400⟩ := by
  have hrun : (allOccurrences schedules now).filter (covers now) = [] :=
    List.filter_eq_nil_iff.mpr (fun o ho => by simp [hnone o ho])
  have hres : resolve schedules now =
      ⟨false, none, minStart? ((allOccurrences schedules now).filter
        (fun o => decide (now < o.start)))⟩ := by
    simp only [resolve]
    rw [hrun]
    rfl
  rw [hres]
  refine ⟨rfl, ?_, ?_, ?_, by decide⟩
  · show minStart? ((allOccurrences schedules now).filter
        (fun o => decide (now < o.start))) = none ↔
      ∀ o ∈ allOccurrences schedules now, ¬ now < o.start
    cases hup : (allOccurrences schedules now).filter
        (fun o => decide (now < o.start)) with
    | nil =>
      refine iff_of_true rfl ?_
      intro o ho
      have h := List.filter_eq_nil_iff.mp hup o ho
      simpa using h
    | cons u us =>
      refine iff_of_false (by simp [minStart?]) ?_
      intro hall
      have huf : u ∈ (allOccurrences schedules now).filter
          (fun o => decide (now < o.start)) := by
        rw [hup]; exact List.mem_cons_self u us
      have hu := List.mem_filter.mp huf
      exact hall u hu.1 (of_decide_eq_true hu.2)
  · intro e he
    revert he
    show minStart? ((allOccurrences schedules now).filter
        (fun o => decide (now < o.start))) = some e → _
    cases hup : (allOccurrences schedules now).filter
        (fun o => decide (now < o.start)) with
    | nil => intro he; simp [minStart?] at he
    | cons u us =>
      intro he
      have he' : us.foldl (fun acc x => min acc x.start) u.start = e := by
        simpa [minStart?] using he
      have hsub : ∀ x : Occurrence, x ∈ u :: us →
          x ∈ allOccurrences schedules now ∧ now < x.start := by
        intro x hx
        have hxf : x ∈ (allOccurrences schedules now).filter
            (fun o => decide (now < o.start)) := by
          rw [hup]; exact hx
        have h := List.mem_filter.mp hxf
        exact ⟨h.1, of_decide_eq_true h.2⟩
      have hsup : ∀ x : Occurrence, x ∈ allOccurrences schedules now →
          now < x.start → x ∈ u :: us := by
        intro x hx hlt
        rw [← hup]
        exact List.mem_filter.mpr ⟨hx, decide_eq_true hlt⟩
      constructor
      · rcases foldl_minStart_mem us u.start with h | ⟨o, ho, hoe⟩
        · exact ⟨u, (hsub u (List.mem_cons_self u us)).1,
            (hsub u (List.mem_cons_self u us)).2, by rw [← he', h]⟩
        · exact ⟨o, (hsub o (List.mem_cons_of_mem u ho)).1,
            (hsub o (List.mem_cons_of_mem u ho)).2, by rw [← he', hoe]⟩
      · intro o ho hlt
        rcases List.mem_cons.mp (hsup o ho hlt) with rfl | hmem2
        · rw [← he']; exact foldl_minStart_le us o.start
        · rw [← he']; exact foldl_minStart_le_mem us u.start o hmem2
  · intro t
    have hgen : generate ⟨4, 0, 9, 30, 120, true⟩ t = [] :=
      generate_zero_mask _ rfl t
    have hocc : allOccurrences [zeroMaskSchedule] t = [] := by
      simp [allOccurrences, zeroMaskSchedule, hgen]
    simp only [resolve]
    rw [hocc]
    rfl

/-- Witness for C2: the Mon-only schedule at Tuesday 09:00 UTC. -/
theorem resolve_idle_branch_witness :
    (resolve [monOnlySchedule] 1980).is_currently_running = false ∧
    ((resolve [monOnlySchedule] 1980).next_start = none ↔
      ∀ o ∈ allOccurrences [monOnlySchedule] 1980, ¬ (1980 : Int) < o.start) ∧
    (∀ e : Int, (resolve [monOnlySchedule] 1980).next_start = some e →
      (∃ o ∈ allOccurrences [monOnlySchedule] 1980,
        (1980 : Int) < o.start ∧ o.start = e) ∧
      (∀ o ∈ allOccurrences [monOnlySchedule] 1980,
        (1980 : Int) < o.start → e ≤ o.start)) ∧
    (∀ t : Int, resolve [zeroMaskSchedule] t = ⟨false, none, none⟩) ∧
    resolve [monOnlySchedule] 1980 = ⟨false, none, some 11400⟩ :=
  resolve_idle_branch [monOnlySchedule] 1980 (by decide)

end Autocoder
